import Mathlib

/-!
Shallow embedding of the `metadataconvert` repository (two Lightning Web
Components: `resultTable` and `userStoryCommitTableActions`) together with
proofs about the embedded operations.

JavaScript values are modelled by the inductive type `JSValue`; machine
floating point does not occur in the modelled code paths (all numbers in
play are integers), so numbers are modelled as `Int`.  A JavaScript
expression that can throw is modelled in `Except Unit`.
-/

inductive JSValue where
  | undefined
  | null
  | bool (b : Bool)
  | num (n : Int)
  | str (s : String)
  | arr (xs : List JSValue)
  | obj (fields : List (String × JSValue))

/-- JavaScript truthiness of a value (NaN does not occur in the model). -/
def jsTruthy : JSValue → Bool
  | .undefined => false
  | .null => false
  | .bool b => b
  | .num n => decide (n ≠ 0)
  | .str s => decide (s ≠ "")
  | .arr _ => true
  | .obj _ => true

/-- A value is nullish (`null` or `undefined`); `?.` short-circuits on these. -/
def jsNullish : JSValue → Bool
  | .undefined => true
  | .null => true
  | _ => false

mutual
/-- JavaScript `String(v)` coercion restricted to the modelled values. -/
def jsToString : JSValue → String
  | .undefined => "undefined"
  | .null => "null"
  | .bool b => if b then "true" else "false"
  | .num n => toString n
  | .str s => s
  | .arr xs => jsArrayJoin xs
  | .obj _ => "[object Object]"
/-- `Array.prototype.toString`, i.e. `join(",")`. -/
def jsArrayJoin : List JSValue → String
  | [] => ""
  | [x] => jsElemString x
  | x :: y :: xs => jsElemString x ++ "," ++ jsArrayJoin (y :: xs)
/-- Element stringification inside `Array.prototype.join`: nullish becomes "". -/
def jsElemString : JSValue → String
  | .undefined => ""
  | .null => ""
  | .bool b => if b then "true" else "false"
  | .num n => toString n
  | .str s => s
  | .arr xs => jsArrayJoin xs
  | .obj _ => "[object Object]"
end

/-- Own-property lookup on an object's field list; a later duplicate key wins,
as for objects produced by `JSON.parse`. -/
def lookupField (fs : List (String × JSValue)) (k : String) : Option JSValue :=
  fs.foldl (fun acc p => if p.1 = k then some p.2 else acc) none

/-- Parses a canonical array-index string (the form under which a string
property key addresses an array element): digits only, no leading zero
except for "0" itself. -/
def canonIndex? (s : String) : Option Nat :=
  let cs := s.toList
  if cs ≠ [] ∧ cs.all Char.isDigit ∧ (cs ≠ ['0'] → cs.head? ≠ some '0') then
    some (cs.foldl (fun acc c => acc * 10 + (c.toNat - 48)) 0)
  else none

/-- JavaScript property access `v[idx]` for the shapes the embedded code can
reach: array element / `length` access, object field access (the key is
string-coerced), string character / `length` access; any other access
yields `undefined`. -/
def jsIndex (v idx : JSValue) : JSValue :=
  match v, idx with
  | .arr xs, .num i =>
    if h : 0 ≤ i ∧ i.toNat < xs.length then xs.get ⟨i.toNat, h.2⟩ else .undefined
  | .arr xs, other =>
    let key := jsToString other
    if key = "length" then .num (xs.length : Int)
    else
      match canonIndex? key with
      | some n => if h : n < xs.length then xs.get ⟨n, h⟩ else .undefined
      | none => .undefined
  | .obj fs, k => (lookupField fs (jsToString k)).getD .undefined
  | .str s, .num i =>
    if h : 0 ≤ i ∧ i.toNat < s.toList.length then .str (String.mk [s.toList.get ⟨i.toNat, h.2⟩])
    else .undefined
  | .str s, other =>
    let key := jsToString other
    if key = "length" then .num (s.toList.length : Int)
    else
      match canonIndex? key with
      | some n =>
        if h : n < s.toList.length then .str (String.mk [s.toList.get ⟨n, h⟩]) else .undefined
      | none => .undefined
  | _, _ => .undefined

/-- Plain field access `v.k` (receivers are never nullish where this is used). -/
def jsGetField (v : JSValue) (k : String) : JSValue := jsIndex v (.str k)

/-- Optional-chaining index `v?.[idx]`. -/
def jsOptIndex (v idx : JSValue) : JSValue :=
  if jsNullish v then .undefined else jsIndex v idx

/-- JavaScript `a || b`. -/
def jsOr (a b : JSValue) : JSValue := if jsTruthy a then a else b

/-! ### resultTable.js constants -/

/-- `SEVERITY_LABELS` from resultTable.js, keyed by the property-key string. -/
def severityLabels : List (String × String) :=
  [("1", "Critical"), ("2", "High"), ("3", "Moderate"), ("4", "Low"), ("5", "Info")]

/-- The label `${severity} (${SEVERITY_LABELS[severity] || ''})`. -/
def severityLabelString (sev : JSValue) : String :=
  jsToString sev ++ " (" ++ (severityLabels.lookup (jsToString sev)).getD "" ++ ")"

/-- `engineDescriptions` from resultTable.js. -/
def engineDescriptions : List (String × String) :=
  [("cpd", "Copy-Paste Detector: Finds duplicate code blocks in Apex and other supported languages."),
   ("eslint", "Analyzes JavaScript and Lightning Web Components for code quality and style issues."),
   ("flow", "Analyzes Salesforce Flows for best practices, security, and maintainability issues."),
   ("pmd", "Performs static analysis on Apex, Visualforce. Includes the PMD AppExchange rules."),
   ("regex", "Detects code patterns using regular expressions. Useful for enforcing simple, custom rules."),
   ("retirejs", "Scans JavaScript libraries for known security vulnerabilities."),
   ("sfge", "Salesforce Graph Engine: Advanced static analysis for security, CRUD/FLS, and data flow in Apex.")]

/-! ### The MAIN_DEFAULT_PATTERN regex

`/main\/default\/([^\/]+)\/(.+)/u` applied with `String.prototype.match`:
an unanchored leftmost search.  With the `u` flag `.` matches any character
except a line terminator. -/

/-- Line terminators that `.` does not match in a JavaScript regex. -/
def lineTerminator (c : Char) : Bool :=
  c = '\n' ∨ c = '\r' ∨ c = '\u2028' ∨ c = '\u2029'

/-- Attempts to match `main\/default\/([^\/]+)\/(.+)` at the head of the
character list, returning the two capture groups.  Both repetitions are
greedy; since `[^\/]+` cannot cross a `/`, backtracking cannot produce any
other successful split, so the match is deterministic. -/
def matchMainDefaultAt (cs : List Char) : Option (String × String) :=
  if List.isPrefixOf "main/default/".toList cs then
    let rest := cs.drop "main/default/".toList.length
    let metaType := rest.takeWhile (fun c => c ≠ '/')
    if metaType = [] then none
    else
      match rest.drop metaType.length with
      | '/' :: rest3 =>
        let fileKey := rest3.takeWhile (fun c => ¬ lineTerminator c)
        if fileKey = [] then none else some (String.mk metaType, String.mk fileKey)
      | _ => none
  else none

/-- Leftmost-match search for `MAIN_DEFAULT_PATTERN` over the input. -/
def regexSearchMainDefault : List Char → Option (String × String)
  | [] => none
  | c :: rest =>
    match matchMainDefaultAt (c :: rest) with
    | some r => some r
    | none => regexSearchMainDefault rest

/-- `extractFileAfterDefault` from resultTable.js.  A falsy path yields
`'Unknown File'`; a string path is shortened via the regex when it matches
and returned unchanged otherwise; calling `.match` on a truthy non-string
value throws a TypeError, modelled as `Except.error`. -/
def extractFileAfterDefault (filePath : JSValue) : Except Unit String :=
  if jsTruthy filePath then
    match filePath with
    | .str s =>
      match regexSearchMainDefault s.toList with
      | some (metaType, fileKey) => .ok (metaType ++ "/" ++ fileKey)
      | none => .ok s
    | _ => .error ()
  else .ok "Unknown File"

/-! ### transformJson -/

/-- The display record built for each violation by `transformJson`.  Raw
fields keep their JavaScript value; `file`, `id` and `severityLabel` are
the strings computed by the source. -/
structure ViolationRec where
  allLocations : JSValue
  engine : JSValue
  file : String
  fullViolation : JSValue
  id : String
  line : JSValue
  message : JSValue
  resource : JSValue
  rule : JSValue
  severity : JSValue
  tags : JSValue
  severityLabel : String

/-- `violation.locations?.[violation.primaryLocationIndex] ||
violation.locations?.[0] || {}` from `transformJson`. -/
def resolvePrimaryLoc (violation : JSValue) : JSValue :=
  let locs := jsGetField violation "locations"
  jsOr (jsOptIndex locs (jsGetField violation "primaryLocationIndex"))
    (jsOr (jsOptIndex locs (.num 0)) (.obj []))

/-- The body of the `map` callback in `transformJson`.  Accessing a property
of a nullish entry throws, as does `extractFileAfterDefault` on a truthy
non-string file value. -/
def transformViolation (violation : JSValue) (idx : Nat) : Except Unit ViolationRec :=
  if jsNullish violation then .error ()
  else
    let primaryLoc := resolvePrimaryLoc violation
    let fullFilePath := jsGetField primaryLoc "file"
    match extractFileAfterDefault fullFilePath with
    | .error e => .error e
    | .ok displayFilePath =>
      .ok
        { allLocations := jsGetField violation "locations"
          engine := jsGetField violation "engine"
          file := displayFilePath
          fullViolation := violation
          id := jsToString (jsGetField violation "rule") ++ "-" ++ jsToString fullFilePath ++ "-"
            ++ jsToString (jsGetField primaryLoc "startLine") ++ "-" ++ toString idx
          line := jsGetField primaryLoc "startLine"
          message := jsGetField violation "message"
          resource := jsOr (jsOptIndex (jsGetField violation "resources") (.num 0)) (.str "")
          rule := jsGetField violation "rule"
          severity := jsGetField violation "severity"
          tags := jsGetField violation "tags"
          severityLabel := severityLabelString (jsGetField violation "severity") }

/-- Index-carrying traversal of the violations array; the first throwing
entry aborts the whole `map`. -/
def mapViolations : List JSValue → Nat → Except Unit (List ViolationRec)
  | [], _ => .ok []
  | v :: rest, idx =>
    match transformViolation v idx with
    | .error e => .error e
    | .ok r =>
      match mapViolations rest (idx + 1) with
      | .error e => .error e
      | .ok rs => .ok (r :: rs)

/-- `transformJson` from resultTable.js.  Reading `.violations` off a
nullish parse result throws; a present array (`Array.isArray`) is mapped;
anything else yields `[]`. -/
def transformJson (parsedJson : JSValue) : Except Unit (List ViolationRec) :=
  if jsNullish parsedJson then .error ()
  else
    match jsGetField parsedJson "violations" with
    | .arr violations => mapViolations violations 0
    | _ => .ok []

/-- The `formattedJson` component of `getFormattedData`'s result: the
transformed rows on a successful parse, the original text otherwise. -/
inductive FormattedValue where
  | rows (violations : List ViolationRec)
  | text (s : String)

/-- The `{ formattedJson, type }` object returned by `getFormattedData`. -/
structure FormattedResult where
  formattedJson : FormattedValue
  type : String

/-- `getFormattedData` from resultTable.js.  `JSON.parse` is a platform
primitive, so its outcome is the explicit argument `parsed` (`none` models
a parse throw).  Everything thrown inside the `try` block (including by
`transformJson`) lands in the `catch`, which returns the original string
with type `'String'`. -/
def getFormattedData (serializedJson : String) (parsed : Option JSValue) : FormattedResult :=
  match parsed with
  | none => ⟨.text serializedJson, "String"⟩
  | some p =>
    match transformJson p with
    | .error _ => ⟨.text serializedJson, "String"⟩
    | .ok formattedJson =>
      if formattedJson.length ≠ 0 then ⟨.rows formattedJson, "Table"⟩
      else ⟨.rows formattedJson, "YAML"⟩

/-! ### Grouping by engine and rule -/

/-- The object built by `createRuleObject`. -/
structure RuleObj where
  engine : JSValue
  resource : JSValue
  rule : JSValue
  severity : JSValue
  tags : JSValue
  violations : List ViolationRec

/-- The object built by `createEngineObject`.  `rules` is the inner object,
modelled as an insertion-ordered association list on the string-coerced
rule key. -/
structure EngineObj where
  engine : JSValue
  rules : List (String × RuleObj)
  violationCount : Nat

def createEngineObject (engine : JSValue) : EngineObj :=
  { engine := engine, rules := [], violationCount := 0 }

def createRuleObject (violation : ViolationRec) : RuleObj :=
  { engine := violation.engine, resource := violation.resource, rule := violation.rule,
    severity := violation.severity, tags := violation.tags, violations := [] }

/-- Whether an association list already has the key. -/
def hasKey (l : List (String × α)) (k : String) : Bool := l.any (fun p => p.1 = k)

/-- In-place update of the entry at a key (object property assignment). -/
def updateAssoc (l : List (String × α)) (k : String) (f : α → α) : List (String × α) :=
  l.map (fun p => if p.1 = k then (p.1, f p.2) else p)

/-- The severity guard in `processViolationsByEngine`: filtering happens
only for a truthy `filterSeverity` (`null` and `''` are falsy), and keeps a
violation when `String(violation.severity) === String(filterSeverity)`. -/
def keepBySeverity (filterSeverity : Option String) (violation : ViolationRec) : Bool :=
  match filterSeverity with
  | none => true
  | some s => if s = "" then true else jsToString violation.severity = s

/-- The per-engine part of one loop iteration of
`processViolationsByEngine`: materialise the rule sub-bucket if absent,
push the violation into it, bump the engine count. -/
def addViolationToEngine (e : EngineObj) (rk : String) (violation : ViolationRec) : EngineObj :=
  let rules1 := if hasKey e.rules rk then e.rules else e.rules ++ [(rk, createRuleObject violation)]
  { engine := e.engine
    rules := updateAssoc rules1 rk (fun r => { r with violations := r.violations ++ [violation] })
    violationCount := e.violationCount + 1 }

/-- One loop iteration of `processViolationsByEngine` past the severity
guard: materialise the engine bucket if absent, then update it. -/
def insertViolation (engines : List (String × EngineObj)) (violation : ViolationRec) :
    List (String × EngineObj) :=
  let ek := jsToString violation.engine
  let rk := jsToString violation.rule
  let engines1 :=
    if hasKey engines ek then engines else engines ++ [(ek, createEngineObject violation.engine)]
  updateAssoc engines1 ek (fun e => addViolationToEngine e rk violation)

/-- `processViolationsByEngine` from resultTable.js. -/
def processViolationsByEngine (violations : List ViolationRec) (filterSeverity : Option String) :
    List (String × EngineObj) :=
  violations.foldl
    (fun engines v => if keepBySeverity filterSeverity v then insertViolation engines v else engines)
    []

/-- `tags.join(', ')` guarded by `Array.isArray`. -/
def tagsJoinString (tags : JSValue) : String :=
  match tags with
  | .arr xs => String.intercalate ", " (xs.map jsElemString)
  | _ => ""

/-- A rule object as produced by `transformEngineObjectsToArray`.  The two
branches build objects with different key sets; a field only one branch
produces is an `Option`, with `none` standing for an absent property. -/
structure OutRule where
  key : Option JSValue
  label : Option String
  engine : Option JSValue
  rule : Option JSValue
  tags : Option JSValue
  resource : JSValue
  severity : JSValue
  tagsString : String
  violations : List ViolationRec
  severityLabel : String

/-- The `includeKey = false` rule mapping (`{...ruleObj, tagsString, severityLabel}`). -/
def transformRuleSpread (r : RuleObj) : OutRule :=
  { key := none, label := none,
    engine := some r.engine, rule := some r.rule, tags := some r.tags,
    resource := r.resource, severity := r.severity,
    tagsString := tagsJoinString r.tags,
    violations := r.violations,
    severityLabel := severityLabelString r.severity }

/-- The `includeKey = true` rule mapping. -/
def transformRuleKeyed (r : RuleObj) : OutRule :=
  { key := some r.rule,
    label := some (jsToString r.rule ++ " (" ++ toString r.violations.length ++ ")"),
    engine := none, rule := none, tags := none,
    resource := r.resource, severity := r.severity,
    tagsString := tagsJoinString r.tags,
    violations := r.violations,
    severityLabel := severityLabelString r.severity }

/-- An engine entry of the array produced by `transformEngineObjectsToArray`. -/
structure OutEngine where
  description : String
  engine : JSValue
  label : String
  rules : List OutRule
  violationCount : Nat
  key : Option JSValue

/-- `transformEngineObjectsToArray` from resultTable.js, over
`Object.values` of the engines object (insertion order). -/
def transformEngineObjectsToArray (engines : List (String × EngineObj)) (includeKey : Bool) :
    List OutEngine :=
  (engines.map Prod.snd).map (fun engineObj =>
    { description := (engineDescriptions.lookup (jsToString engineObj.engine)).getD ""
      engine := engineObj.engine
      label := jsToString engineObj.engine ++ " (" ++ toString engineObj.violationCount ++ ")"
      rules :=
        if includeKey then engineObj.rules.map (fun p => transformRuleKeyed p.2)
        else engineObj.rules.map (fun p => transformRuleSpread p.2)
      violationCount := engineObj.violationCount
      key := if includeKey then some engineObj.engine else none })

/-! ### Component state: severity toggle and search -/

/-- The reactive fields of `ResultTable` that the severity and search
handlers read and write. -/
structure ResultTableState where
  formattedJson : List ViolationRec
  filteredJson : Option (List ViolationRec)
  selectedSeverity : Option String
  searchValue : String

/-- `handleSeverityClick`: reselecting the current severity clears it. -/
def handleSeverityClick (st : ResultTableState) (severity : String) : ResultTableState :=
  { st with
    selectedSeverity := if st.selectedSeverity = some severity then none else some severity }

/-- The whitespace class removed by `String.prototype.trim`. -/
def jsWhitespaceChar (c : Char) : Bool :=
  c = ' ' ∨ c = '\t' ∨ c = '\n' ∨ c = '\r' ∨ c = '\x0b' ∨ c = '\x0c' ∨
  c = '\u00A0' ∨ c = '\u1680' ∨ ('\u2000' ≤ c ∧ c ≤ '\u200A') ∨ c = '\u2028' ∨ c = '\u2029' ∨
  c = '\u202F' ∨ c = '\u205F' ∨ c = '\u3000' ∨ c = '\uFEFF'

/-- `String.prototype.trim`. -/
def jsTrim (s : String) : String :=
  String.mk (((s.toList.dropWhile jsWhitespaceChar).reverse.dropWhile jsWhitespaceChar).reverse)

/-- `String.prototype.toLowerCase` restricted to ASCII (the only case the
embedded searches exercise). -/
def strToLower (s : String) : String :=
  String.mk (s.toList.map fun c => if 'A' ≤ c ∧ c ≤ 'Z' then Char.ofNat (c.toNat + 32) else c)

/-- Substring test, `String.prototype.includes`. -/
def listIsSubOf (needle : List Char) : List Char → Bool
  | [] => needle.isEmpty
  | c :: rest => List.isPrefixOf needle (c :: rest) || listIsSubOf needle rest

def strIncludes (hay needle : String) : Bool := listIsSubOf needle.toList hay.toList

/-- The `for (const key in row)` iteration in `_applySearch`: the own
enumerable keys of a transformed violation row, in insertion order, each
coerced with `String(...)`. -/
def rowFieldStrings (r : ViolationRec) : List String :=
  [jsToString r.allLocations, jsToString r.engine, r.file, jsToString r.fullViolation,
   r.id, jsToString r.line, jsToString r.message, jsToString r.resource,
   jsToString r.rule, jsToString r.severity, jsToString r.tags, r.severityLabel]

/-- The row predicate of `_applySearch`: some field coerces to a non-empty
string whose lowercasing contains the search term. -/
def rowMatchesSearch (searchTerm : String) (r : ViolationRec) : Bool :=
  (rowFieldStrings r).any (fun value => value ≠ "" && strIncludes (strToLower value) searchTerm)

/-- `this.searchValue ? this.searchValue.trim().toLowerCase() : ''`. -/
def searchTermOf (input : String) : String :=
  if input = "" then "" else strToLower (jsTrim input)

/-- `_applySearch` from resultTable.js. -/
def applySearch (st : ResultTableState) (searchTerm : String) : ResultTableState :=
  { st with filteredJson := some (st.formattedJson.filter (rowMatchesSearch searchTerm)) }

/-- `_clearSearch` from resultTable.js. -/
def clearSearch (st : ResultTableState) : ResultTableState := { st with filteredJson := none }

/-- `handleSearch` from resultTable.js. -/
def handleSearch (st : ResultTableState) (input : String) : ResultTableState :=
  let st1 := { st with searchValue := input }
  let searchTerm := searchTermOf input
  if searchTerm = "" then clearSearch st1 else applySearch st1 searchTerm

/-- The working set every grouping getter starts from:
`this.filteredJson || this.formattedJson` (an array, even empty, is truthy). -/
def displayedData (st : ResultTableState) : List ViolationRec :=
  match st.filteredJson with
  | some l => l
  | none => st.formattedJson

/-! ### userStoryCommitTableActions.js -/

/-- Splits around the leftmost occurrence of a (non-empty) pattern. -/
def splitAtFirstOccur (pat : List Char) : List Char → Option (List Char × List Char)
  | [] => none
  | c :: rest =>
    if List.isPrefixOf pat (c :: rest) then some ([], (c :: rest).drop pat.length)
    else
      match splitAtFirstOccur pat rest with
      | some (pre, post) => some (c :: pre, post)
      | none => none

/-- `String.prototype.replace` with a string pattern: replaces only the
first occurrence, and leaves the string unchanged when the pattern is
absent. -/
def jsReplaceFirst (s pat rep : String) : String :=
  match splitAtFirstOccur pat.toList s.toList with
  | some (pre, post) => String.mk pre ++ rep ++ String.mk post
  | none => s

/-- `String.prototype.includes` on strings. -/
def jsIncludesSub (s pat : String) : Bool := listIsSubOf pat.toList s.toList

/-- Truthiness of the `SFCC_METADATA_DIRECTORY` property (`none` models an
absent property; an empty string is falsy). -/
def dirOverrideTruthy : Option String → Bool
  | none => false
  | some s => decide (s ≠ "")

/-- The body of the `metadata.reduce` callback in `renderedCallback`: a
template containing `<site-id>` is mapped over the site list, any other
template contributes a single entry.  The site branch first computes
`result = meta.replace("<site-id>", site)` but, when a directory override
is present, overwrites it with `meta.replace("metadata/", override)`
computed from the original template, exactly as the source does. -/
def expandTemplate (sites : List String) (dirOverride : Option String) (meta : String) :
    List String :=
  if jsIncludesSub meta "<site-id>" then
    sites.map (fun site =>
      let result := jsReplaceFirst meta "<site-id>" site
      if dirOverrideTruthy dirOverride then jsReplaceFirst meta "metadata/" (dirOverride.getD "")
      else result)
  else
    [if dirOverrideTruthy dirOverride then jsReplaceFirst meta "metadata/" (dirOverride.getD "")
     else meta]

/-- The whole `metadata.reduce(..., [])` computing `this._filtered`. -/
def expandMetadataItems (metadata sites : List String) (dirOverride : Option String) :
    List String :=
  metadata.foldl (fun arr meta => arr ++ expandTemplate sites dirOverride meta) []

/-- A commit-line entry as published on the message channel. -/
structure CommitEntry where
  Operation : String
  MemberName : String
  MemberType : String
  Directory : String
  LastModifiedDate : String
  LastModifiedByName : String
  Category : String
deriving DecidableEq

/-- One record of the parsed changeset returned by
`getChangesFromUserStory` (fields `n`, `t`, `m`, `c`). -/
structure EnvChange where
  n : String
  t : String
  m : String
  c : String
deriving DecidableEq

/-- The mapping applied to each parsed changeset record in `retrieveChanges`. -/
def envChangeToCommit (e : EnvChange) : CommitEntry :=
  { Operation := "Add", MemberName := e.n, MemberType := e.t, Directory := e.m,
    LastModifiedDate := "", LastModifiedByName := "", Category := e.c }

/-- The mapping applied to each expanded metadata item in `retrieveChanges`. -/
def metadataToCommit (file : String) : CommitEntry :=
  { Operation := "Add", MemberName := file, MemberType := "xml", Directory := "",
    LastModifiedDate := "", LastModifiedByName := "", Category := "ccmetadata" }

/-- The order induced by the sort comparator
`({MemberName: a}, {MemberName: b}) => a < b ? -1 : a > b ? 1 : 0`. -/
def commitLe (a b : CommitEntry) : Prop := a.MemberName ≤ b.MemberName

instance : DecidableRel commitLe :=
  fun a b => inferInstanceAs (Decidable (a.MemberName ≤ b.MemberName))

instance : IsTotal CommitEntry commitLe := ⟨fun a b => le_total a.MemberName b.MemberName⟩

instance : IsTrans CommitEntry commitLe := ⟨fun _ _ _ h1 h2 => le_trans h1 h2⟩

/-- The payload object published by `retrieveChanges`.  `Array.prototype.sort`
with a consistent comparator is a stable sort, modelled by insertion sort
on the comparator's order. -/
structure CommitPayload where
  type : String
  value : List CommitEntry
deriving DecidableEq

/-- Builds the published payload from `this._filtered` and the parsed
changeset: metadata entries first, then changeset entries, sorted by
member name. -/
def retrieveChangesPayload (filtered : List String) (envObj : List EnvChange) : CommitPayload :=
  { type := "retrievedChanges",
    value :=
      List.insertionSort commitLe (filtered.map metadataToCommit ++ envObj.map envChangeToCommit) }

/-- The externally observable outcome of one `retrieveChanges` run: the
messages published on the channel, the final `_isWorking` flag, and the
errors handed to `console.log` by the `catch` block. -/
structure RetrieveOutcome where
  published : List CommitPayload
  isWorkingAfter : Bool
  loggedErrors : List String
deriving DecidableEq

/-- `retrieveChanges` from userStoryCommitTableActions.js.  The argument
`fetched` is the outcome of `JSON.parse(await getChangesFromUserStory(...))`
followed by the `.map`: `Except.error` models a rejected remote call or a
parse/shape failure.  The `finally` block clears `_isWorking` on both
paths; the `catch` block only logs. -/
def retrieveChanges (filtered : List String) (fetched : Except String (List EnvChange)) :
    RetrieveOutcome :=
  match fetched with
  | .ok envObj =>
    { published := [retrieveChangesPayload filtered envObj], isWorkingAfter := false,
      loggedErrors := [] }
  | .error e => { published := [], isWorkingAfter := false, loggedErrors := [e] }

/-! ### Auxiliary definitions used by the verification -/

/-- The file values on which `extractFileAfterDefault` does not throw:
strings, and falsy values. -/
def fileExtractOk (fv : JSValue) : Bool :=
  match fv with
  | .str _ => true
  | x => !jsTruthy x

/-- The raw violation of the sample payload from the spec's testable
property list. -/
def samplePmdViolation : JSValue :=
  .obj [("engine", .str "pmd"), ("rule", .str "R1"), ("severity", .num 3),
        ("locations", .arr [.obj [("file", .str "main/default/classes/Foo.cls"),
                                  ("startLine", .num 10)]]),
        ("primaryLocationIndex", .num 0), ("message", .str "m"),
        ("resources", .arr [.str "Foo"]), ("tags", .arr [])]

/-- The sample payload `violations: [samplePmdViolation]`. -/
def samplePmdPayload : JSValue := .obj [("violations", .arr [samplePmdViolation])]

/-- The record `transformJson` produces for an empty-object violation. -/
def blankViolationRec : ViolationRec :=
  { allLocations := .undefined, engine := .undefined, file := "Unknown File",
    fullViolation := .obj [], id := "undefined-undefined-undefined-0",
    line := .undefined, message := .undefined, resource := .str "",
    rule := .undefined, severity := .undefined, tags := .undefined,
    severityLabel := "undefined ()" }

/-- A concrete component state with one row, used to instantiate the search
round-trip theorem. -/
def sampleSearchState : ResultTableState :=
  { formattedJson := [blankViolationRec], filteredJson := none, selectedSeverity := none,
    searchValue := "" }

/-- Sum of the per-rule violation counts inside one engine bucket. -/
def ruleSum (e : EngineObj) : Nat := (e.rules.map (fun p => p.2.violations.length)).sum

/-- Well-formedness of one engine bucket: distinct rule keys, and the
stored count agrees with the per-rule sum. -/
def engWf (e : EngineObj) : Prop :=
  (e.rules.map Prod.fst).Nodup ∧ e.violationCount = ruleSum e

/-- Well-formedness of the engines table: distinct engine keys, every
bucket well-formed. -/
def tableWf (engines : List (String × EngineObj)) : Prop :=
  (engines.map Prod.fst).Nodup ∧ ∀ p ∈ engines, engWf p.2

/-- Sum of the stored per-engine counts. -/
def engineTableTotal (engines : List (String × EngineObj)) : Nat :=
  (engines.map (fun p => p.2.violationCount)).sum

/-! ### Basic lemmas about the transformer -/

theorem jsGetField_of_nullish (p : JSValue) (k : String) (h : jsNullish p = true) :
    jsGetField p k = .undefined := by
  cases p <;> simp_all [jsNullish, jsGetField, jsIndex]

theorem mapViolations_ok_length (vs : List JSValue) (i : Nat) (rs : List ViolationRec)
    (h : mapViolations vs i = .ok rs) : rs.length = vs.length := by
  induction vs generalizing i rs with
  | nil => simp [mapViolations] at h; simp [← h]
  | cons v rest ih =>
    simp only [mapViolations] at h
    cases hv : transformViolation v i with
    | error e => rw [hv] at h; exact absurd h (by simp)
    | ok r =>
      rw [hv] at h
      cases hrest : mapViolations rest (i + 1) with
      | error e => rw [hrest] at h; exact absurd h (by simp)
      | ok rs2 =>
        rw [hrest] at h
        cases h
        simp [ih (i + 1) rs2 hrest]

theorem extractFileAfterDefault_ok (fv : JSValue) (h : fileExtractOk fv = true) :
    ∃ s, extractFileAfterDefault fv = .ok s := by
  cases fv with
  | str s =>
    by_cases hs : s = ""
    · exact ⟨"Unknown File", by simp [extractFileAfterDefault, jsTruthy, hs]⟩
    · cases hm : regexSearchMainDefault s.data with
      | none => exact ⟨s, by simp [extractFileAfterDefault, jsTruthy, hs, hm]⟩
      | some r =>
        exact ⟨r.1 ++ "/" ++ r.2, by cases r; simp [extractFileAfterDefault, jsTruthy, hs, hm]⟩
  | undefined => exact ⟨_, rfl⟩
  | null => exact ⟨_, rfl⟩
  | bool b =>
    cases b
    · exact ⟨_, rfl⟩
    · simp [fileExtractOk, jsTruthy] at h
  | num n =>
    have hn : n = 0 := by simpa [fileExtractOk, jsTruthy] using h
    exact ⟨"Unknown File", by simp [extractFileAfterDefault, jsTruthy, hn]⟩
  | arr xs => simp [fileExtractOk, jsTruthy] at h
  | obj fs => simp [fileExtractOk, jsTruthy] at h

theorem transformViolation_ok (v : JSValue) (i : Nat) (hnn : jsNullish v = false)
    (hfile : fileExtractOk (jsGetField (resolvePrimaryLoc v) "file") = true) :
    ∃ r, transformViolation v i = .ok r := by
  obtain ⟨s, hs⟩ := extractFileAfterDefault_ok _ hfile
  simp only [transformViolation, hnn, Bool.false_eq_true, if_false, hs]
  exact ⟨_, rfl⟩

theorem mapViolations_ok_of_good (vs : List JSValue) (i : Nat)
    (h : ∀ v ∈ vs, jsNullish v = false ∧
      fileExtractOk (jsGetField (resolvePrimaryLoc v) "file") = true) :
    ∃ rs, mapViolations vs i = .ok rs ∧ rs.length = vs.length := by
  induction vs generalizing i with
  | nil => exact ⟨[], rfl, rfl⟩
  | cons v rest ih =>
    obtain ⟨hnn, hfile⟩ := h v (by simp)
    obtain ⟨r, hr⟩ := transformViolation_ok v i hnn hfile
    obtain ⟨rs, hrs, hlen⟩ := ih (i + 1) (fun w hw => h w (by simp [hw]))
    exact ⟨r :: rs, by simp [mapViolations, hr, hrs], by simp [hlen]⟩

theorem transformJson_eq_map (p : JSValue) (vs : List JSValue)
    (hv : jsGetField p "violations" = .arr vs) : transformJson p = mapViolations vs 0 := by
  have hnn : jsNullish p = false := by
    cases hp : jsNullish p
    · rfl
    · rw [jsGetField_of_nullish p "violations" hp] at hv; cases hv
  simp [transformJson, hnn, hv]

/-! ### Claim theorems -/

/-- C2: the sample pmd payload is transformed into exactly one Violation
record with `file = "classes/Foo.cls"`, `engine = "pmd"` and `line = 10`
(the path-shortening rule keeps everything after `main/default/`). -/
theorem samplePmd_single_violation :
    ∃ r, transformJson samplePmdPayload = .ok [r] ∧ r.file = "classes/Foo.cls" ∧
      r.engine = .str "pmd" ∧ r.line = .num 10 :=
  ⟨_, rfl, rfl, rfl, rfl⟩

/-- C4: whenever `JSON.parse` throws, `getFormattedData` returns type
`'String'` and the original input string unchanged. -/
theorem getFormattedData_parse_throw (serializedJson : String) :
    getFormattedData serializedJson none =
      { formattedJson := .text serializedJson, type := "String" } :=
  rfl

/-- C6: when the changeset fetch of `retrieveChanges` fails, nothing is
published on the channel, the error is only logged, and the `_isWorking`
indicator ends up cleared; the single run performs no retry. -/
theorem retrieveChanges_failure_silent (filtered : List String) (e : String) :
    retrieveChanges filtered (.error e) =
      { published := [], isWorkingAfter := false, loggedErrors := [e] } :=
  rfl

/-- C7: starting from a state with no severity selected, clicking the same
severity twice leaves `selectedSeverity` back at `null`. -/
theorem handleSeverityClick_toggle_twice (formattedJson : List ViolationRec)
    (filteredJson : Option (List ViolationRec)) (searchValue : String) (severity : String) :
    (handleSeverityClick
        (handleSeverityClick ⟨formattedJson, filteredJson, none, searchValue⟩ severity)
        severity).selectedSeverity = none := by
  simp [handleSeverityClick]

/-- C3 (code evaluation): without a directory override the `<site-id>`
template expands to one entry per site, differing only in the site
segment; with an override present the source recomputes from the original
template, so both entries are identical and still contain the placeholder
while only the directory is substituted. -/
theorem expandMetadataItems_site_template :
    expandMetadataItems ["metadata/sites/<site-id>/settings"] ["A", "B"] none =
      ["metadata/sites/A/settings", "metadata/sites/B/settings"] ∧
    expandMetadataItems ["metadata/sites/<site-id>/settings"] ["A", "B"] (some "custom/") =
      ["custom/sites/<site-id>/settings", "custom/sites/<site-id>/settings"] :=
  ⟨rfl, rfl⟩

/-- C1 counterexample: the payload `violations: []` parses successfully and
has a violations array, yet `getFormattedData` classifies it `'YAML'`, not
`'Table'` as the claim states. -/
theorem getFormattedData_empty_violations_not_table :
    jsGetField (JSValue.obj [("violations", JSValue.arr [])]) "violations" = JSValue.arr [] ∧
    (getFormattedData "s" (some (.obj [("violations", .arr [])]))).type = "YAML" ∧
    (getFormattedData "s" (some (.obj [("violations", .arr [])]))).type ≠ "Table" :=
  ⟨rfl, rfl, by decide⟩

/-- C1 (amended): for a successfully parsed, non-null value, a non-empty
violations array whose mapping succeeds is classified `'Table'` with the
mapped records; an empty or absent violations array is classified `'YAML'`. -/
theorem getFormattedData_classification (serializedJson : String) (p : JSValue)
    (hp : jsNullish p = false) :
    (∀ violations rows, jsGetField p "violations" = .arr violations → violations ≠ [] →
        transformJson p = .ok rows →
        getFormattedData serializedJson (some p) = ⟨.rows rows, "Table"⟩) ∧
    (jsGetField p "violations" = .arr [] →
        getFormattedData serializedJson (some p) = ⟨.rows [], "YAML"⟩) ∧
    ((∀ violations, jsGetField p "violations" ≠ .arr violations) →
        getFormattedData serializedJson (some p) = ⟨.rows [], "YAML"⟩) := by
  refine ⟨?_, ?_, ?_⟩
  · intro violations rows hv hne htr
    have hmap : transformJson p = mapViolations violations 0 := transformJson_eq_map p violations hv
    have hlen : rows.length = violations.length :=
      mapViolations_ok_length violations 0 rows (hmap ▸ htr)
    have hlen0 : rows.length ≠ 0 := by
      rw [hlen]
      exact fun h => hne (List.length_eq_zero.mp h)
    simp [getFormattedData, htr, hlen0]
  · intro hv
    have htr : transformJson p = .ok [] := by rw [transformJson_eq_map p [] hv]; rfl
    simp [getFormattedData, htr]
  · intro hnone
    have htr : transformJson p = .ok [] := by
      simp only [transformJson, hp, Bool.false_eq_true, if_false]
    simp [getFormattedData, htr]

/-- C1 witness: a one-element violations array is classified `'Table'` with
its mapped record. -/
theorem getFormattedData_classification_witness :
    getFormattedData "x" (some (.obj [("violations", .arr [.obj []])])) =
      ⟨.rows [blankViolationRec], "Table"⟩ :=
  (getFormattedData_classification "x" (.obj [("violations", .arr [.obj []])]) rfl).1
    [.obj []] [blankViolationRec] rfl (List.cons_ne_nil _ _) rfl

/-- `handleSearch` never touches `formattedJson`. -/
theorem handleSearch_formattedJson (st : ResultTableState) (input : String) :
    (handleSearch st input).formattedJson = st.formattedJson := by
  unfold handleSearch
  by_cases h : searchTermOf input = "" <;> simp [h, clearSearch, applySearch]

/-- C8: searching and then clearing the term (empty or whitespace-only
input) restores exactly the pre-search working set, the `formattedJson`
list itself; while a search is active the working set is exactly the rows
some string-coerced field of which contains the lowercased trimmed term. -/
theorem handleSearch_roundtrip (st : ResultTableState) (input clearInput : String)
    (hclear : searchTermOf clearInput = "") :
    (handleSearch (handleSearch st input) clearInput).filteredJson = none ∧
    displayedData (handleSearch (handleSearch st input) clearInput) = st.formattedJson ∧
    (searchTermOf input ≠ "" →
      (handleSearch st input).filteredJson =
        some (st.formattedJson.filter (rowMatchesSearch (searchTermOf input))) ∧
      ∀ r, r ∈ displayedData (handleSearch st input) ↔
        r ∈ st.formattedJson ∧ rowMatchesSearch (searchTermOf input) r = true) := by
  have h2 : handleSearch (handleSearch st input) clearInput =
      clearSearch { handleSearch st input with searchValue := clearInput } := by
    unfold handleSearch
    simp [hclear]
  refine ⟨?_, ?_, ?_⟩
  · rw [h2]; simp [clearSearch]
  · rw [h2]; simp [displayedData, clearSearch, handleSearch_formattedJson]
  · intro hne
    have h1 : handleSearch st input =
        applySearch { st with searchValue := input } (searchTermOf input) := by
      unfold handleSearch
      simp [hne]
    rw [h1]
    constructor
    · simp [applySearch]
    · intro r
      simp [applySearch, displayedData, List.mem_filter]

/-- C8 witness: a concrete search for " PmD " followed by a whitespace-only
input leaves the working set equal to the original list. -/
theorem handleSearch_roundtrip_witness :
    (handleSearch (handleSearch sampleSearchState " PmD ") "  ").filteredJson = none ∧
    displayedData (handleSearch (handleSearch sampleSearchState " PmD ") "  ") =
      [blankViolationRec] :=
  ⟨(handleSearch_roundtrip sampleSearchState " PmD " "  " rfl).1,
   (handleSearch_roundtrip sampleSearchState " PmD " "  " rfl).2.1⟩

/-- C5: a successful `retrieveChanges` run publishes exactly one message of
type `'retrievedChanges'` whose value is a permutation of the expanded
metadata entries (mapped through `metadataToCommit`, i.e. tagged Category
`'ccmetadata'`, MemberType `'xml'`, Operation `'Add'`) followed by the
fetched changeset entries (mapped through `envChangeToCommit`, keeping
each record's category), arranged in ascending lexicographic order of
`MemberName`. -/
theorem retrieveChanges_success_sorted (filtered : List String) (envObj : List EnvChange) :
    (retrieveChanges filtered (.ok envObj)).published = [retrieveChangesPayload filtered envObj] ∧
    (retrieveChangesPayload filtered envObj).type = "retrievedChanges" ∧
    List.Perm (retrieveChangesPayload filtered envObj).value
      (filtered.map metadataToCommit ++ envObj.map envChangeToCommit) ∧
    List.Sorted commitLe (retrieveChangesPayload filtered envObj).value :=
  ⟨rfl, rfl, List.perm_insertionSort commitLe _, List.sorted_insertionSort commitLe _⟩

/-- C10 counterexample: a payload whose violations array holds an object
violation with a numeric location `file` makes `transformJson` throw
(calling `.match` on a number is a TypeError), so the transformer is not
total over payloads with a violations array of objects. -/
theorem transformJson_throws_on_numeric_file :
    transformJson (.obj [("violations",
      .arr [.obj [("locations", .arr [.obj [("file", .num 1)]])]])]) = .error () :=
  rfl

/-- A violation whose resolved primary location is the empty object is
transformed without throwing, with file `'Unknown File'` and an undefined
line. -/
theorem transformViolation_noloc (v : JSValue) (idx : Nat) (hnn : jsNullish v = false)
    (hres : resolvePrimaryLoc v = .obj []) :
    ∃ r, transformViolation v idx = .ok r ∧ r.file = "Unknown File" ∧
      r.line = .undefined := by
  simp only [transformViolation, hnn, Bool.false_eq_true, if_false, hres]
  exact ⟨_, rfl, rfl, rfl⟩

/-- C10 (amended): over violations arrays of non-nullish entries whose
resolved location `file` is a string or falsy, `transformJson` is total and
returns one record per entry; a primary-location index that is `undefined`
or an out-of-range number makes the resolution fall back to
`locations[0]` (then to an empty object); and an entry whose `locations`
is absent yields `file = 'Unknown File'` and `line = undefined` instead of
throwing. -/
theorem transformJson_total_fallbacks (p : JSValue) (violations : List JSValue)
    (hv : jsGetField p "violations" = .arr violations)
    (hgood : ∀ v ∈ violations, jsNullish v = false ∧
      fileExtractOk (jsGetField (resolvePrimaryLoc v) "file") = true) :
    (∃ rows, transformJson p = .ok rows ∧ rows.length = violations.length) ∧
    (∀ v locs, jsGetField v "locations" = .arr locs →
      (jsGetField v "primaryLocationIndex" = .undefined ∨
        ∃ i : Int, jsGetField v "primaryLocationIndex" = .num i ∧
          (i < 0 ∨ (locs.length : Int) ≤ i)) →
      resolvePrimaryLoc v = jsOr (jsIndex (.arr locs) (.num 0)) (.obj [])) ∧
    (∀ v idx, jsNullish v = false → jsNullish (jsGetField v "locations") = true →
      ∃ r, transformViolation v idx = .ok r ∧ r.file = "Unknown File" ∧
        r.line = .undefined) := by
  refine ⟨?_, ?_, ?_⟩
  · obtain ⟨rs, hrs, hlen⟩ := mapViolations_ok_of_good violations 0 hgood
    exact ⟨rs, by rw [transformJson_eq_map p violations hv]; exact hrs, hlen⟩
  · intro v locs hloc hidx
    have hund : jsIndex (.arr locs) (jsGetField v "primaryLocationIndex") = .undefined := by
      rcases hidx with h | ⟨i, hi, hrange⟩
      · rw [h]; rfl
      · rw [hi]
        simp only [jsIndex]
        rw [dif_neg]
        push_neg
        intro hle
        rcases hrange with hneg | hge
        · exact absurd hle (by omega)
        · omega
    simp only [resolvePrimaryLoc, hloc, jsOptIndex, jsNullish, hund]
    simp [jsOr, jsTruthy]
  · intro v idx hnn hlocs
    cases hl : jsGetField v "locations" with
    | undefined =>
      have hres : resolvePrimaryLoc v = .obj [] := by
        simp [resolvePrimaryLoc, hl, jsOptIndex, jsNullish, jsOr, jsTruthy]
      exact transformViolation_noloc v idx hnn hres
    | null =>
      have hres : resolvePrimaryLoc v = .obj [] := by
        simp [resolvePrimaryLoc, hl, jsOptIndex, jsNullish, jsOr, jsTruthy]
      exact transformViolation_noloc v idx hnn hres
    | bool b => rw [hl] at hlocs; simp [jsNullish] at hlocs
    | num n => rw [hl] at hlocs; simp [jsNullish] at hlocs
    | str s => rw [hl] at hlocs; simp [jsNullish] at hlocs
    | arr xs => rw [hl] at hlocs; simp [jsNullish] at hlocs
    | obj fs => rw [hl] at hlocs; simp [jsNullish] at hlocs

/-- C10 witness: a one-element violations array of a plain object is
transformed totally into exactly one record. -/
theorem transformJson_total_fallbacks_witness :
    ∃ rows, transformJson (JSValue.obj [("violations", JSValue.arr [JSValue.obj []])]) =
      .ok rows ∧ rows.length = 1 :=
  (transformJson_total_fallbacks (.obj [("violations", .arr [.obj []])]) [.obj []] rfl
    (by
      intro v hv
      simp only [List.mem_singleton] at hv
      subst hv
      exact ⟨rfl, rfl⟩)).1

theorem updateAssoc_cons (p : String × α) (t : List (String × α)) (k : String) (f : α → α) :
    updateAssoc (p :: t) k f = (if p.1 = k then (p.1, f p.2) else p) :: updateAssoc t k f := rfl

theorem keys_updateAssoc (l : List (String × α)) (k : String) (f : α → α) :
    (updateAssoc l k f).map Prod.fst = l.map Prod.fst := by
  induction l with
  | nil => rfl
  | cons p t ih =>
    rw [updateAssoc_cons]
    by_cases hp : p.1 = k <;> simp [hp, ih]

theorem updateAssoc_of_not_mem (l : List (String × α)) (k : String) (f : α → α)
    (h : k ∉ l.map Prod.fst) : updateAssoc l k f = l := by
  induction l with
  | nil => rfl
  | cons p t ih =>
    simp only [List.map_cons, List.mem_cons, not_or] at h
    rw [updateAssoc_cons, if_neg (fun hh => h.1 hh.symm), ih h.2]

theorem hasKey_iff (l : List (String × α)) (k : String) :
    hasKey l k = true ↔ k ∈ l.map Prod.fst := by
  simp only [hasKey, List.any_eq_true, decide_eq_true_eq, List.mem_map]

theorem sum_map_updateAssoc (l : List (String × α)) (k : String) (f : α → α)
    (g : String × α → Nat) (hnd : (l.map Prod.fst).Nodup) (hk : k ∈ l.map Prod.fst)
    (hf : ∀ p : String × α, g (p.1, f p.2) = g p + 1) :
    ((updateAssoc l k f).map g).sum = (l.map g).sum + 1 := by
  induction l with
  | nil => simp at hk
  | cons p t ih =>
    simp only [List.map_cons, List.nodup_cons] at hnd
    simp only [List.map_cons, List.mem_cons] at hk
    by_cases hp : p.1 = k
    · have hkt : k ∉ t.map Prod.fst := hp ▸ hnd.1
      rw [updateAssoc_cons, if_pos hp, updateAssoc_of_not_mem t k f hkt]
      simp only [List.map_cons, List.sum_cons, hf]
      omega
    · have hkt : k ∈ t.map Prod.fst := by
        rcases hk with h | h
        · exact absurd h.symm hp
        · exact h
      rw [updateAssoc_cons, if_neg hp]
      simp only [List.map_cons, List.sum_cons, ih hnd.2 hkt]
      omega

theorem engWf_addViolationToEngine (e : EngineObj) (rk : String) (v : ViolationRec)
    (h : engWf e) : engWf (addViolationToEngine e rk v) := by
  obtain ⟨hnd, hcount⟩ := h
  unfold engWf ruleSum at *
  by_cases hk : hasKey e.rules rk = true
  · simp only [addViolationToEngine, hk, if_true]
    refine ⟨?_, ?_⟩
    · rw [keys_updateAssoc]; exact hnd
    · rw [sum_map_updateAssoc _ _ _ _ hnd ((hasKey_iff _ _).mp hk) (fun p => by simp)]
      omega
  · have hkf : hasKey e.rules rk = false := by simpa using hk
    have hmem : rk ∉ e.rules.map Prod.fst := fun hm => hk ((hasKey_iff _ _).mpr hm)
    simp only [addViolationToEngine, hkf, Bool.false_eq_true, if_false]
    have hnd1 : ((e.rules ++ [(rk, createRuleObject v)]).map Prod.fst).Nodup := by
      simp only [List.map_append, List.map_cons, List.map_nil]
      simp [List.nodup_append, hnd, hmem]
    have hmem1 : rk ∈ (e.rules ++ [(rk, createRuleObject v)]).map Prod.fst := by
      simp
    refine ⟨?_, ?_⟩
    · rw [keys_updateAssoc]; exact hnd1
    · rw [sum_map_updateAssoc _ _ _ _ hnd1 hmem1 (fun p => by simp)]
      simp only [List.map_append, List.sum_append, List.map_cons, List.map_nil,
        List.sum_cons, List.sum_nil]
      simp [createRuleObject]
      omega

theorem tableWf_insertViolation (engines : List (String × EngineObj)) (v : ViolationRec)
    (h : tableWf engines) :
    tableWf (insertViolation engines v) ∧
    engineTableTotal (insertViolation engines v) = engineTableTotal engines + 1 := by
  obtain ⟨hnd, hwf⟩ := h
  unfold insertViolation
  by_cases hk : hasKey engines (jsToString v.engine) = true
  · simp only [hk, if_true]
    have hmem := (hasKey_iff engines (jsToString v.engine)).mp hk
    refine ⟨⟨?_, ?_⟩, ?_⟩
    · rw [keys_updateAssoc]; exact hnd
    · intro p hp
      obtain ⟨q, hq, he⟩ := List.mem_map.mp hp
      by_cases hq1 : q.1 = jsToString v.engine
      · rw [if_pos hq1] at he
        rw [← he]
        exact engWf_addViolationToEngine q.2 _ v (hwf q hq)
      · rw [if_neg hq1] at he
        rw [← he]
        exact hwf q hq
    · unfold engineTableTotal
      rw [sum_map_updateAssoc _ _ _ _ hnd hmem (fun p => rfl)]
  · have hkf : hasKey engines (jsToString v.engine) = false := by simpa using hk
    have hmem : jsToString v.engine ∉ engines.map Prod.fst :=
      fun hm => hk ((hasKey_iff _ _).mpr hm)
    simp only [hkf, Bool.false_eq_true, if_false]
    have hnd1 :
        ((engines ++ [(jsToString v.engine, createEngineObject v.engine)]).map Prod.fst).Nodup := by
      simp only [List.map_append, List.map_cons, List.map_nil]
      simp [List.nodup_append, hnd, hmem]
    have hwf1 : ∀ p ∈ engines ++ [(jsToString v.engine, createEngineObject v.engine)], engWf p.2 := by
      intro p hp
      rcases List.mem_append.mp hp with hp | hp
      · exact hwf p hp
      · simp only [List.mem_singleton] at hp
        rw [hp]
        exact ⟨List.nodup_nil, rfl⟩
    have hmem1 :
        jsToString v.engine ∈
          (engines ++ [(jsToString v.engine, createEngineObject v.engine)]).map Prod.fst := by
      simp
    refine ⟨⟨?_, ?_⟩, ?_⟩
    · rw [keys_updateAssoc]; exact hnd1
    · intro p hp
      obtain ⟨q, hq, he⟩ := List.mem_map.mp hp
      by_cases hq1 : q.1 = jsToString v.engine
      · rw [if_pos hq1] at he
        rw [← he]
        exact engWf_addViolationToEngine q.2 _ v (hwf1 q hq)
      · rw [if_neg hq1] at he
        rw [← he]
        exact hwf1 q hq
    · unfold engineTableTotal
      rw [sum_map_updateAssoc _ _ _ _ hnd1 hmem1 (fun p => rfl)]
      simp [createEngineObject]

theorem process_invariant (vs : List ViolationRec) (fs : Option String) :
    ∀ engines, tableWf engines →
      tableWf (vs.foldl
        (fun es v => if keepBySeverity fs v then insertViolation es v else es) engines) ∧
      engineTableTotal (vs.foldl
        (fun es v => if keepBySeverity fs v then insertViolation es v else es) engines)
        = engineTableTotal engines + (vs.filter (keepBySeverity fs)).length := by
  induction vs with
  | nil => intro engines h; simpa using h
  | cons v rest ih =>
    intro engines h
    simp only [List.foldl_cons, List.filter_cons]
    by_cases hkeep : keepBySeverity fs v = true
    · simp only [hkeep, if_true]
      obtain ⟨h1, h2⟩ := tableWf_insertViolation engines v h
      obtain ⟨h3, h4⟩ := ih (insertViolation engines v) h1
      refine ⟨h3, ?_⟩
      rw [h4, h2]
      simp only [List.length_cons]
      omega
    · have hkf : keepBySeverity fs v = false := by simpa using hkeep
      simp only [hkf, Bool.false_eq_true, if_false]
      exact ih engines h

theorem processViolations_counts (violations : List ViolationRec) (fs : Option String) :
    tableWf (processViolationsByEngine violations fs) ∧
    engineTableTotal (processViolationsByEngine violations fs)
      = (violations.filter (keepBySeverity fs)).length := by
  have h := process_invariant violations fs [] ⟨List.nodup_nil, by simp⟩
  unfold processViolationsByEngine
  constructor
  · exact h.1
  · rw [h.2]
    simp [engineTableTotal]

/-- C9: in the engine grouping produced from any violation list (with any
severity filter and either output shape), the per-rule violation counts
inside an engine sum to that engine's `violationCount`, and the
`violationCount`s over all engines sum to the size of the
severity-filtered input. -/
theorem violation_count_partition (violations : List ViolationRec) (filterSeverity : Option String)
    (includeKey : Bool) :
    (∀ e ∈ transformEngineObjectsToArray (processViolationsByEngine violations filterSeverity)
        includeKey,
      (e.rules.map (fun r => r.violations.length)).sum = e.violationCount) ∧
    ((transformEngineObjectsToArray (processViolationsByEngine violations filterSeverity)
        includeKey).map (fun e => e.violationCount)).sum
      = (violations.filter (keepBySeverity filterSeverity)).length := by
  obtain ⟨⟨hnd, hwf⟩, htot⟩ := processViolations_counts violations filterSeverity
  constructor
  · intro e he
    unfold transformEngineObjectsToArray at he
    obtain ⟨eo, heo, rfl⟩ := List.mem_map.mp he
    obtain ⟨p, hp, rfl⟩ := List.mem_map.mp heo
    have hwfp := hwf p hp
    cases includeKey
    · simp only [Bool.false_eq_true, if_false, List.map_map]
      have hmap : ((fun r => r.violations.length) ∘ fun q => transformRuleSpread q.2)
          = fun q : String × RuleObj => q.2.violations.length := by
        funext q
        simp [Function.comp, transformRuleSpread]
      rw [hmap]
      exact hwfp.2.symm
    · simp only [if_true, List.map_map]
      have hmap : ((fun r => r.violations.length) ∘ fun q => transformRuleKeyed q.2)
          = fun q : String × RuleObj => q.2.violations.length := by
        funext q
        simp [Function.comp, transformRuleKeyed]
      rw [hmap]
      exact hwfp.2.symm
  · unfold transformEngineObjectsToArray
    simp only [List.map_map]
    have hmap : ∀ b : Bool, ((fun e : OutEngine => e.violationCount) ∘
        ((fun engineObj : EngineObj =>
          ({ description := (engineDescriptions.lookup (jsToString engineObj.engine)).getD ""
             engine := engineObj.engine
             label := jsToString engineObj.engine ++ " (" ++ toString engineObj.violationCount ++ ")"
             rules :=
               if b then engineObj.rules.map (fun p => transformRuleKeyed p.2)
               else engineObj.rules.map (fun p => transformRuleSpread p.2)
             violationCount := engineObj.violationCount
             key := if b then some engineObj.engine else none } : OutEngine)) ∘ Prod.snd))
        = fun p : String × EngineObj => p.2.violationCount := by
      intro b
      funext p
      simp [Function.comp]
    rw [hmap]
    exact htot
